import Mathlib

/-!
# Verification of the iteration-cli Diff Classification & Reviewer Assignment Engine

Shallow embedding of the core subsystems of the `iteration-cli` repository:

* the diff classifier (`GitUtils.analyzeDiffForModules` and its helper predicates),
* the preference cache (`UserCacheManager` in `src/utils/cache.ts`),
* the batch assignment engine (`BatchReviewerAssignment`).

Strings are modelled as `List Char` (`Str`).  Node's `path` module helpers
(`basename`, `extname`, `dirname`) are modelled for POSIX paths, following the
documented Node semantics.  JavaScript numbers used as reviewer/user ids are
modelled as `Nat` (ids are non-negative integers in this code base); timestamps
are modelled as `Int`.  JavaScript's falsy-based `||` fallbacks on numbers are
modelled explicitly (`0` and "absent" are both falsy).

`String.localeCompare` (used only inside the classifier's final sort) is
modelled as code-point comparison; none of the theorems below depend on the
particular total order it induces.
-/

namespace IterationCli

abbrev Str := List Char

/-! ## Generic string helpers -/

/-- Substring occurrence test (recursion over the scanned string). -/
def containsSub (frag : Str) : Str → Bool
  | [] => frag.isEmpty
  | c :: rest => frag.isPrefixOf (c :: rest) || containsSub frag rest

/-- JS `String.prototype.includes` (substring test). -/
def includes (s frag : Str) : Bool := containsSub frag s

/-- JS `String.prototype.endsWith`. -/
def endsWith (s suffix : Str) : Bool := suffix.isSuffixOf s

/-- JS `String.prototype.toLowerCase`, restricted to ASCII (all paths and
extensions handled by the tool are ASCII where case matters). -/
def toLowerStr (s : Str) : Str := s.map Char.toLower

/-- JS `String.prototype.split('/')`. -/
def splitSlash (s : Str) : List Str := s.splitOn '/'

/-- JS `str.replace(pat, '')` for a plain-string pattern: removes the first
occurrence of `pat` (no occurrence: unchanged; empty pattern: unchanged,
since the replacement is empty). -/
def removeFirst (pat : Str) : Str → Str
  | [] => []
  | c :: rest =>
    if pat.isPrefixOf (c :: rest) then (c :: rest).drop pat.length
    else c :: removeFirst pat rest

/-- JS `str.replace(/^\//, '')`: strip one leading slash. -/
def stripLeadingSlash : Str → Str
  | '/' :: rest => rest
  | s => s

/-! ## Node `path` module (POSIX) -/

/-- `path.basename(p)`: trailing separators stripped, then the final segment. -/
def basename (p : Str) : Str :=
  ((p.reverse.dropWhile (· = '/')).takeWhile (· ≠ '/')).reverse

/-- `path.extname(p)`: the suffix of the basename from its last dot, `''` when
there is no dot, when the only dot is the leading character of the basename
(dotfiles), or for the special component `'..'`. -/
def extname (p : Str) : Str :=
  let b := basename p
  if b = ['.', '.'] then []
  else
    let revTail := b.reverse.takeWhile (· ≠ '.')
    if revTail.length = b.length then []
    else if revTail.length + 1 = b.length then []
    else '.' :: revTail.reverse

/-- `path.dirname(p)` (POSIX). -/
def dirname (p : Str) : Str :=
  let rev1 := p.reverse.dropWhile (· = '/')
  let rev2 := rev1.dropWhile (· ≠ '/')
  let rev3 := rev2.dropWhile (· = '/')
  if rev3 = [] then (if p.headD ' ' = '/' then ['/'] else ['.'])
  else rev3.reverse

/-- `path.basename(p, path.extname(p))`: the basename with its extension
stripped (Node only strips a non-empty proper suffix). -/
def fileStem (p : Str) : Str :=
  let b := basename p
  let e := extname p
  if e ≠ [] ∧ e ≠ b ∧ e.isSuffixOf b then b.take (b.length - e.length) else b

/-! ## Diff classifier data model (`src/utils/git.ts`) -/

inductive FileStatus
  | A | M | D | R | C
deriving DecidableEq, Repr

structure DiffFile where
  path : Str
  status : FileStatus
  insertions : Option Nat := none
  deletions : Option Nat := none
deriving DecidableEq, Repr

structure ComponentSuggestion where
  name : Str
  path : Str
  relativePath : Str
  status : FileStatus
  type : Str
deriving DecidableEq, Repr

structure FunctionSuggestion where
  name : Str
  path : Str
  relativePath : Str
  description : Str
  category : Str
  status : FileStatus
deriving DecidableEq, Repr

/-! ## Classifier predicates -/

def styleExtensions : List Str :=
  [".css", ".scss", ".sass", ".less", ".styl", ".stylus"].map String.toList

/-- `GitUtils.isStyleFile`. -/
def isStyleFile (filePath : Str) : Bool :=
  styleExtensions.any fun ext => endsWith (toLowerStr filePath) ext

def componentPaths : List Str :=
  ["/components/", "/widgets/", "/ui/", "/component/"].map String.toList

def componentExtensions : List Str :=
  [".vue", ".jsx", ".tsx", ".svelte"].map String.toList

/-- The extensions appearing in the classifier's PascalCase regular
expression `/[A-Z][a-zA-Z0-9]*\.(vue|jsx|tsx|svelte)$/`. -/
def componentRegexExts : List Str :=
  ["vue", "jsx", "tsx", "svelte"].map String.toList

/-- The regex character class `[a-zA-Z0-9]`. -/
def isAsciiAlnum (c : Char) : Bool := c.isUpper || c.isLower || c.isDigit

/-- Matches `[a-zA-Z0-9]*\.(vue|jsx|tsx|svelte)$` against the whole of
`rest`: `rest` must end with `.ext` for one of the four extensions, and
everything in front of that suffix must be alphanumeric (the dot never
belongs to the character class, so the split point is forced). -/
def matchAlnumDotExt (rest : Str) : Bool :=
  componentRegexExts.any fun ext =>
    let suffix := '.' :: ext
    suffix.isSuffixOf rest && (rest.take (rest.length - suffix.length)).all isAsciiAlnum

/-- The (unanchored) regex test
`/[A-Z][a-zA-Z0-9]*\.(vue|jsx|tsx|svelte)$/.test b`: some suffix of `b`
starts with an uppercase letter and continues `[a-zA-Z0-9]*\.(ext)` to the
end of the string.  Note the regex is *not* anchored at the start of the
basename. -/
def pascalExtTail : Str → Bool
  | [] => false
  | c :: rest => (c.isUpper && matchAlnumDotExt rest) || pascalExtTail rest

/-- `GitUtils.isComponentFile`. -/
def isComponentFile (filePath : Str) : Bool :=
  if isStyleFile filePath then false
  else
    let hasComponentPath := componentPaths.any fun p => includes filePath p
    let hasComponentExt := componentExtensions.any fun ext => endsWith filePath ext
    let isPascalCase := pascalExtTail (basename filePath)
    hasComponentPath || (hasComponentExt && isPascalCase)

def functionPaths : List Str :=
  ["/pages/", "/views/", "/routes/", "/router/",
   "/features/", "/modules/", "/domains/",
   "/services/", "/api/", "/utils/", "/helpers/",
   "/store/", "/stores/", "/state/"].map String.toList

/-- `GitUtils.isFunctionFile`. -/
def isFunctionFile (filePath : Str) : Bool :=
  if isStyleFile filePath then false
  else
    functionPaths.any (fun p => includes filePath p) ||
      includes filePath "/src/".toList || includes filePath "/lib/".toList

/-! ## Name derivation -/

/-- The generic path segments skipped by the index-file disambiguation. -/
def stopSegments : List Str := ["src", "components", "views", "pages"].map String.toList

/-- The loop collecting up to two "meaningful" ancestor segments (iterating
from the nearest ancestor outwards, `unshift`-ing, and breaking once two have
been collected; equivalently: the last two qualifying segments, in path
order). -/
def relevantParts (parts : List Str) : List Str :=
  ((parts.dropLast.reverse.filter fun part =>
      part ≠ [] && !stopSegments.contains part).take 2).reverse

/-- `part.charAt(0).toUpperCase() + part.slice(1)` (ASCII model). -/
def capitalize : Str → Str
  | [] => []
  | c :: rest => c.toUpper :: rest

/-- Camel-join: first segment unchanged, later segments capitalized. -/
def camelJoin : List Str → Str
  | [] => []
  | p :: rest => p ++ (rest.map capitalize).flatten

/-- `GitUtils.getFileTypeSuffix`'s extension→label table. -/
def extSuffixTable : List (Str × Str) :=
  ([(".vue", "Vue"), (".js", "JavaScript"), (".ts", "TypeScript"),
    (".jsx", "JSX"), (".tsx", "TSX"), (".css", "CSS"), (".scss", "Sass"),
    (".less", "Less"), (".sass", "Sass"), (".html", "HTML"),
    (".json", "JSON"), (".md", "Markdown"), (".py", "Python"),
    (".java", "Java"), (".go", "Go")]).map fun pr => (pr.1.toList, pr.2.toList)

/-- `GitUtils.getFileTypeSuffix` (unmapped extensions give `''`). -/
def getFileTypeSuffix (ext : Str) : Str :=
  (extSuffixTable.lookup (toLowerStr ext)).getD []

/-- The name-derivation logic shared verbatim by `createComponentSuggestion`
and `createFunctionSuggestion` (the source duplicates this block in both). -/
def deriveName (filePath : Str) : Str :=
  let fileName := fileStem filePath
  if toLowerStr fileName = "index".toList then
    let parts := relevantParts (splitSlash filePath)
    let base :=
      if parts ≠ [] then camelJoin parts
      else
        let parentDir := basename (dirname filePath)
        if parentDir ≠ ['.'] then parentDir else fileName
    let suffix := getFileTypeSuffix (extname filePath)
    if suffix ≠ [] then '(' :: (suffix ++ ')' :: ' ' :: base) else base
  else fileName

/-- `file.path.replace(this.workDir, '').replace(/^\//, '')`. -/
def relativeTo (workDir filePath : Str) : Str :=
  stripLeadingSlash (removeFirst workDir filePath)

/-- `GitUtils.createComponentSuggestion`. -/
def createComponentSuggestion (workDir : Str) (file : DiffFile) : ComponentSuggestion :=
  { name := deriveName file.path
    path := file.path
    relativePath := relativeTo workDir file.path
    status := file.status
    type := (extname file.path).drop 1 }

/-- `GitUtils.createFunctionSuggestion` (category/description chain). -/
def createFunctionSuggestion (workDir : Str) (file : DiffFile) : FunctionSuggestion :=
  let functionName := deriveName file.path
  let catDesc : Str × Str :=
    if includes file.path "/pages/".toList || includes file.path "/views/".toList then
      ("pages".toList, functionName ++ "页面".toList)
    else if includes file.path "/api/".toList || includes file.path "/services/".toList then
      ("api".toList, functionName ++ "接口服务".toList)
    else if includes file.path "/utils/".toList || includes file.path "/helpers/".toList then
      ("utils".toList, functionName ++ "工具函数".toList)
    else if includes file.path "/store/".toList || includes file.path "/stores/".toList then
      ("store".toList, functionName ++ "状态管理".toList)
    else if includes file.path "/features/".toList || includes file.path "/modules/".toList then
      ("features".toList, functionName ++ "功能模块".toList)
    else
      ("other".toList, functionName)
  { name := functionName
    path := file.path
    relativePath := relativeTo workDir file.path
    description := catDesc.2
    category := catDesc.1
    status := file.status }

/-! ## Classifier sort and entry point -/

/-- Code-point comparison standing in for `String.localeCompare` (only its
sign is ever used; no theorem below depends on the particular order). -/
def strCmp : Str → Str → Int
  | [], [] => 0
  | [], _ :: _ => -1
  | _ :: _, [] => 1
  | a :: as, b :: bs =>
    if a.val < b.val then -1 else if b.val < a.val then 1 else strCmp as bs

/-- The status part of both sort comparators: `Added` first, other unequal
statuses left in place. -/
def statusCmp (a b : FileStatus) : Int :=
  if a ≠ b then (if a = .A then -1 else if b = .A then 1 else 0) else 0

/-- The component sort comparator. -/
def componentCmp (a b : ComponentSuggestion) : Int :=
  if a.status ≠ b.status then statusCmp a.status b.status else strCmp a.name b.name

/-- The function-suggestion sort comparator. -/
def functionCmp (a b : FunctionSuggestion) : Int :=
  if a.category ≠ b.category then strCmp a.category b.category
  else if a.status ≠ b.status then statusCmp a.status b.status
  else strCmp a.name b.name

structure AnalyzeResult where
  suggestedComponents : List ComponentSuggestion
  suggestedFunctions : List FunctionSuggestion
deriving DecidableEq, Repr

/-- `GitUtils.analyzeDiffForModules`: each diff file is tested independently
against both predicates; matches are collected in input order and each list is
then sorted with its comparator.  `Array.prototype.sort` is a stable sort, so
it is modelled by (stable) insertion sort on the relation `cmp · · ≤ 0`. -/
def analyzeDiffForModules (workDir : Str) (diffFiles : List DiffFile) : AnalyzeResult :=
  let comps := diffFiles.filterMap fun f =>
    if isComponentFile f.path then some (createComponentSuggestion workDir f) else none
  let funcs := diffFiles.filterMap fun f =>
    if isFunctionFile f.path then some (createFunctionSuggestion workDir f) else none
  { suggestedComponents := comps.insertionSort fun a b => componentCmp a b ≤ 0
    suggestedFunctions := funcs.insertionSort fun a b => functionCmp a b ≤ 0 }

/-! ## Preference cache (`src/utils/cache.ts`)

The persisted `LocalCache` document.  The untyped
`fileReviewerPreferences` field (added dynamically through `(cache as any)`)
is modelled as an insertion-ordered association list with unique keys: an
absent field behaves exactly like an empty one, so both are represented by
`[]`.  Reviewer/user ids (JS numbers used as object keys) are modelled as
`Nat`. -/

structure UserInfo where
  id : Nat
  realName : Str
deriving DecidableEq, Repr

structure LocalCache where
  projectLines : List Str := []
  defaultProjectLine : Option Str := none
  participants : List UserInfo := []
  checkUsers : List UserInfo := []
  recentParticipants : List Nat := []
  recentCheckUsers : List Nat := []
  gitInfo : Option (Str × Str) := none
  fileReviewerPreferences : List (Str × List (Nat × Nat)) := []
  lastUpdated : Int := 0
deriving DecidableEq, Repr

/-- `UserCacheManager.getDefaultCache` (its `lastUpdated` is `Date.now()`). -/
def getDefaultCache (now : Int) : LocalCache :=
  { projectLines := []
    participants := []
    checkUsers := []
    recentParticipants := []
    recentCheckUsers := []
    lastUpdated := now }

/-- `CACHE_EXPIRY_DAYS * 24 * 60 * 60 * 1000` with `CACHE_EXPIRY_DAYS = 30`. -/
def cacheExpiryMs : Int := 30 * 24 * 60 * 60 * 1000

/-- The state of the persisted JSON document: missing, present but
unparseable (`fs.readJson` throws), or parsed to a record. -/
inductive CacheFileState
  | absent
  | corrupt
  | stored (c : LocalCache)
deriving DecidableEq, Repr

/-- `fs.pathExists(CACHE_FILE)`. -/
def pathExists : CacheFileState → Bool
  | .absent => false
  | _ => true

/-- `fs.readJson(CACHE_FILE)`: fails on a missing or unparseable document. -/
def readJsonCache : CacheFileState → Except Str LocalCache
  | .absent => .error "ENOENT".toList
  | .corrupt => .error "unexpected token".toList
  | .stored c => .ok c

/-- `UserCacheManager.loadCache`: the whole body runs inside `try/catch`, so a
read/parse failure falls through to the default record; an expired record is
discarded for the default.  The function never writes or removes the cache
file, which the result's second component (the unchanged disk state) records.
The source's `cacheData.lastUpdated || 0` only renames a missing/zero field,
which this typed model already stores as `0`. -/
def loadCache (now : Int) (disk : CacheFileState) : LocalCache × CacheFileState :=
  if pathExists disk then
    match readJsonCache disk with
    | .ok cacheData =>
      if now - cacheData.lastUpdated > cacheExpiryMs then (getDefaultCache now, disk)
      else (cacheData, disk)
    | .error _ => (getDefaultCache now, disk)
  else (getDefaultCache now, disk)

/-- The recency-merge inside `updateParticipantUsage` / `updateCheckUserUsage`:
start from a copy of the new ids, append each previously recorded id that is
not already present, keep the first 20. -/
def mergeRecent (userIds old : List Nat) : List Nat :=
  (old.foldl (fun acc id => if acc.contains id then acc else acc ++ [id]) userIds).take 20

/-- `UserCacheManager.updateParticipantUsage` (the concluding `saveCache`
stamps `lastUpdated` with the current time). -/
def updateParticipantUsage (now : Int) (cache : LocalCache) (userIds : List Nat) : LocalCache :=
  { cache with
      recentParticipants := mergeRecent userIds cache.recentParticipants
      lastUpdated := now }

/-- `UserCacheManager.updateCheckUserUsage`. -/
def updateCheckUserUsage (now : Int) (cache : LocalCache) (userIds : List Nat) : LocalCache :=
  { cache with
      recentCheckUsers := mergeRecent userIds cache.recentCheckUsers
      lastUpdated := now }

/-- JS property write `obj[k] = v` on a plain object with string keys:
an existing key keeps its position, a new key is appended. -/
def jsSetStr {β : Type} (m : List (Str × β)) (k : Str) (v : β) : List (Str × β) :=
  match m.lookup k with
  | some _ => m.map fun e => if e.1 = k then (k, v) else e
  | none => m ++ [(k, v)]

/-- JS property write for integer-like keys (reviewer ids). -/
def jsSetNat {β : Type} (m : List (Nat × β)) (k : Nat) (v : β) : List (Nat × β) :=
  match m.lookup k with
  | some _ => m.map fun e => if e.1 = k then (k, v) else e
  | none => m ++ [(k, v)]

/-- `UserCacheManager.updateFileReviewerPreference`: no-op (no save either)
when the path has no extension; otherwise bump
`fileReviewerPreferences[extension][reviewerId]` by one and save. -/
def updateFileReviewerPreference (now : Int) (cache : LocalCache)
    (filePath : Str) (reviewerId : Nat) : LocalCache :=
  let extension := toLowerStr (extname filePath)
  if extension = [] then cache
  else
    let inner := (cache.fileReviewerPreferences.lookup extension).getD []
    let bumped := jsSetNat inner reviewerId ((inner.lookup reviewerId).getD 0 + 1)
    { cache with
        fileReviewerPreferences := jsSetStr cache.fileReviewerPreferences extension bumped
        lastUpdated := now }

/-- Key order on numeric-keyed entry lists (ascending ids). -/
def keyLE {β : Type} (a b : Nat × β) : Prop := a.1 ≤ b.1

instance {β : Type} : DecidableRel (keyLE (β := β)) := fun a b => Nat.decLe a.1 b.1

instance {β : Type} : IsTotal (Nat × β) keyLE := ⟨fun a b => Nat.le_total a.1 b.1⟩

instance {β : Type} : IsTrans (Nat × β) keyLE := ⟨fun _ _ _ h1 h2 => Nat.le_trans h1 h2⟩

/-- `Object.entries` on an object whose keys are all canonical numeric
strings (reviewer ids): JS enumerates such integer-like keys in ascending
numeric order, regardless of insertion order. -/
def jsEntriesNat {β : Type} (m : List (Nat × β)) : List (Nat × β) :=
  m.insertionSort keyLE

/-- The comparator `([, a], [, b]) => b - a` of
`getRecommendedReviewerForFile`, as a "≤" relation (descending weights). -/
def weightLE (a b : Nat × Nat) : Prop := b.2 ≤ a.2

instance : DecidableRel weightLE := fun a b => Nat.decLe b.2 a.2

instance : IsTotal (Nat × Nat) weightLE := ⟨fun a b => Nat.le_total b.2 a.2⟩

instance : IsTrans (Nat × Nat) weightLE := ⟨fun _ _ _ h1 h2 => Nat.le_trans h2 h1⟩

/-- Strict "better entry" order: strictly greater weight, or equal weight and
strictly smaller reviewer id. -/
def weightKeyLT (a b : Nat × Nat) : Prop := b.2 < a.2 ∨ (b.2 = a.2 ∧ a.1 < b.1)

/-- `UserCacheManager.getRecommendedReviewerForFile`: sort the extension's
weight entries by descending weight (`Array.prototype.sort` is stable, hence
stable insertion sort) and return the first whose id occurs in
`availableUsers` (which are matched through their `.id` field). -/
def getRecommendedReviewerForFile (cache : LocalCache) (filePath : Str)
    (availableUsers : List UserInfo) : Option Nat :=
  let extension := toLowerStr (extname filePath)
  match cache.fileReviewerPreferences.lookup extension with
  | none => none
  | some fileTypePrefs =>
    let sortedReviewers := (jsEntriesNat fileTypePrefs).insertionSort weightLE
    (sortedReviewers.find? fun pr => availableUsers.any fun u => u.id = pr.1).map (·.1)

/-! ## Batch assignment engine (`src/utils/batch-assignment.ts`) -/

inductive AssignMode
  | single | byType | byDirectory | individual
deriving DecidableEq, Repr

structure BatchAssignmentOptions where
  mode : AssignMode
  defaultReviewer : Option Nat := none
  typeBasedMapping : List (Str × Nat) := []
  directoryBasedMapping : List (Str × Nat) := []
deriving DecidableEq, Repr

/-- An inquirer choice entry `{name, value, short}` as used for reviewers. -/
structure ChoiceItem where
  name : Str
  value : Nat
  short : Str := []
deriving DecidableEq, Repr

/-- The fields of `ComponentSuggestion | FunctionSuggestion` the engine
reads (`name` and `relativePath`). -/
structure SelectedFile where
  name : Str
  relativePath : Str
deriving DecidableEq, Repr

structure AssignmentResult where
  filePath : Str
  fileName : Str
  reviewerId : Nat
  reviewerName : Str
  assignmentReason : Str
deriving DecidableEq, Repr

/-- JS `a || b` on numbers: `0` (and a missing property, collapsed to `0` by
`jsLookupNum`) is falsy. -/
def jsOrNat (a b : Nat) : Nat := if a = 0 then b else a

/-- Property read `m[k]` on a `Record<string, number>`, collapsing the two
falsy outcomes (`undefined` and `0`) that the `||` chains branch on. -/
def jsLookupNum (m : List (Str × Nat)) (k : Str) : Nat := (m.lookup k).getD 0

/-- `path.extname(p).toLowerCase() || '.other'`. -/
def jsExtOrOther (p : Str) : Str :=
  let e := toLowerStr (extname p)
  if e = [] then ".other".toList else e

/-- `userChoices[0].value` (the source indexes unconditionally; on an empty
choice list it would throw, so the default is irrelevant to any run that
completes). -/
def firstChoiceValue : List ChoiceItem → Nat
  | [] => 0
  | c :: _ => c.value

/-- Rough JS `\s` for the name-cleaning regexes. -/
def isJsWs (c : Char) : Bool := c = ' ' || c = '\t' || c = '\n' || c = '\r'

/-- `name.replace(/⭐\s*/, '')`: drop the first star and the whitespace run
following it. -/
def replaceStarWs : Str → Str
  | [] => []
  | c :: rest => if c = '⭐' then rest.dropWhile isJsWs else c :: replaceStarWs rest

/-- One attempted match of `\s*\[.*?\]` anchored at the start of `s`:
optional whitespace, `[`, a newline-free lazy body, `]`.  Returns the
remainder after the match. -/
def tryBracketAt (s : Str) : Option Str :=
  let ws := s.takeWhile isJsWs
  match s.drop ws.length with
  | '[' :: u =>
    let inner := u.takeWhile fun ch => ch != ']' && ch != '\n'
    match u.drop inner.length with
    | ']' :: v => some v
    | _ => none
  | _ => none

/-- `name.replace(/\s*\[.*?\]/, '')`: remove the first bracketed tag together
with the whitespace in front of it. -/
def replaceBracketTag : Str → Str
  | [] => []
  | c :: rest =>
    match tryBracketAt (c :: rest) with
    | some v => v
    | none => c :: replaceBracketTag rest

/-- `reviewer.short || reviewer.name.replace(/⭐\s*/, '').replace(/\s*\[.*?\]/, '')`,
or `'未知'` when no choice carries the reviewer id. -/
def resolveReviewerName (userChoices : List ChoiceItem) (reviewerId : Nat) : Str :=
  match userChoices.find? fun c => c.value = reviewerId with
  | some reviewer =>
    if reviewer.short ≠ [] then reviewer.short
    else replaceBracketTag (replaceStarWs reviewer.name)
  | none => "未知".toList

/-- `BatchReviewerAssignment.getMainDirectory`. -/
def meaningfulDirs : List Str :=
  ["components", "pages", "views", "utils", "services", "api",
   "store", "features", "modules"].map String.toList

def getMainDirectory (filePath : Str) : Str :=
  let parts := (splitSlash filePath).filter fun part => part.length > 0
  match parts.find? fun part => meaningfulDirs.contains (toLowerStr part) with
  | some part => part
  | none => if parts.length > 1 then parts.headD [] else "root".toList

/-- The per-file body of `executeBatchAssignment`'s loop: reviewer id and
reason for one selected file. -/
def assignReviewer (options : BatchAssignmentOptions) (userChoices : List ChoiceItem)
    (file : SelectedFile) : Nat × Str :=
  match options.mode with
  | .single => (options.defaultReviewer.getD 0, "统一分配".toList)
  | .byType =>
    let extension := jsExtOrOther file.relativePath
    (jsOrNat (jsLookupNum options.typeBasedMapping extension)
       (jsOrNat (jsLookupNum options.typeBasedMapping ".other".toList)
          (firstChoiceValue userChoices)),
     "文件类型: ".toList ++ extension)
  | .byDirectory =>
    let directory := getMainDirectory file.relativePath
    (jsOrNat (jsLookupNum options.directoryBasedMapping directory)
       (firstChoiceValue userChoices),
     "目录: ".toList ++ directory)
  | .individual => (firstChoiceValue userChoices, "默认分配".toList)

/-- One `AssignmentResult` of `executeBatchAssignment`. -/
def assignOne (options : BatchAssignmentOptions) (userChoices : List ChoiceItem)
    (file : SelectedFile) : AssignmentResult :=
  let ra := assignReviewer options userChoices file
  { filePath := file.relativePath
    fileName := file.name
    reviewerId := ra.1
    reviewerName := resolveReviewerName userChoices ra.1
    assignmentReason := ra.2 }

/-- A recorded call to `cacheManager.updateFileReviewerPreference`. -/
abbrev PersistCall := Str × Nat

/-- `BatchReviewerAssignment.executeBatchAssignment`: maps every selected file
to a result and records one `updateFileReviewerPreference(relativePath,
reviewerId)` persistence call per file.  The returned trace lists those calls
in execution order. -/
def executeBatchAssignment (selectedFiles : List SelectedFile)
    (options : BatchAssignmentOptions) (userChoices : List ChoiceItem) :
    List AssignmentResult × List PersistCall :=
  (selectedFiles.map (assignOne options userChoices),
   selectedFiles.map fun f =>
     (f.relativePath, (assignReviewer options userChoices f).1))

/-- The `reduce` pattern `groups[key] = groups[key] || []; groups[key].push(x)`
shared by `showAssignmentPreview`, `analyzeFileTypes` and
`analyzeDirectories`: buckets keyed by (non-numeric) strings, in first-seen
key order, each bucket in arrival order. -/
def jsGroupPush {α : Type} : List (Str × List α) → Str → α → List (Str × List α)
  | [], k, x => [(k, [x])]
  | (k', xs) :: gs, k, x =>
    if k' = k then (k', xs ++ [x]) :: gs else (k', xs) :: jsGroupPush gs k x

/-- `BatchReviewerAssignment.analyzeFileTypes`. -/
def analyzeFileTypes (files : List SelectedFile) : List (Str × List SelectedFile) :=
  files.foldl (fun types f => jsGroupPush types (jsExtOrOther f.relativePath) f) []

inductive PreviewAction
  | confirmed | retry | cancel
deriving DecidableEq, Repr

/-- `BatchReviewerAssignment.showAssignmentPreview`: groups the results by
reviewer name for display, prompts, and returns the chosen action.  It calls
nothing on the cache manager, so its persistence trace is empty; `answer` is
the human operator's in-band reply. -/
def showAssignmentPreview (results : List AssignmentResult) (answer : PreviewAction) :
    PreviewAction × List (Str × List AssignmentResult) × List PersistCall :=
  let groupedByReviewer :=
    results.foldl (fun groups r => jsGroupPush groups r.reviewerName r) []
  (answer, groupedByReviewer, [])

/-- `executeBatchAssignment` followed by `showAssignmentPreview`: the
results, the combined persistence trace, and the preview disposition. -/
def batchRun (selectedFiles : List SelectedFile) (options : BatchAssignmentOptions)
    (userChoices : List ChoiceItem) (answer : PreviewAction) :
    List AssignmentResult × List PersistCall × PreviewAction :=
  let er := executeBatchAssignment selectedFiles options userChoices
  let pv := showAssignmentPreview er.1 answer
  (er.1, er.2 ++ pv.2.2, pv.1)

/-- The classifier in state-passing form over the only shared mutable state of
the core (the cache file): `analyzeDiffForModules` performs no I/O — its body
reads nothing but its arguments — so the embedding returns the unchanged
world. -/
def analyzeDiffForModulesM (workDir : Str) (diffFiles : List DiffFile)
    (world : CacheFileState) : AnalyzeResult × CacheFileState :=
  (analyzeDiffForModules workDir diffFiles, world)

/-- Running the classifier twice in sequence, threading the world. -/
def analyzeDiffTwice (workDir : Str) (diffFiles : List DiffFile)
    (world : CacheFileState) : (AnalyzeResult × AnalyzeResult) × CacheFileState :=
  let r1 := analyzeDiffForModulesM workDir diffFiles world
  let r2 := analyzeDiffForModulesM workDir diffFiles r1.2
  ((r1.1, r2.1), r2.2)

/-! ## Usage-recording call sequences (for the recency-list invariant) -/

inductive UsageCall
  | participant (ids : List Nat)
  | checkUser (ids : List Nat)
deriving DecidableEq, Repr

def UsageCall.ids : UsageCall → List Nat
  | .participant ids => ids
  | .checkUser ids => ids

def applyUsageCall (now : Int) (cache : LocalCache) : UsageCall → LocalCache
  | .participant ids => updateParticipantUsage now cache ids
  | .checkUser ids => updateCheckUserUsage now cache ids

def runUsageCalls (now : Int) (cache : LocalCache) (calls : List UsageCall) : LocalCache :=
  calls.foldl (applyUsageCall now) cache

/-- The recency-list invariant: duplicate-free and at most 20 entries. -/
def RecencyOk (cache : LocalCache) : Prop :=
  cache.recentParticipants.Nodup ∧ cache.recentParticipants.length ≤ 20 ∧
    cache.recentCheckUsers.Nodup ∧ cache.recentCheckUsers.length ≤ 20

/-- The amended `byType` fallback chain, stated independently of the code with
`Option` lookups: the extension's mapped reviewer when present and nonzero,
else the `.other` mapping when present and nonzero, else the first reviewer
choice. -/
def byTypeSpecReviewer (m : List (Str × Nat)) (choices : List ChoiceItem) (p : Str) : Nat :=
  let ext := jsExtOrOther p
  let fallback :=
    match m.lookup ".other".toList with
    | some w => if w ≠ 0 then w else firstChoiceValue choices
    | none => firstChoiceValue choices
  match m.lookup ext with
  | some v => if v ≠ 0 then v else fallback
  | none => fallback

/-! ## Helper lemmas -/

/-- The deduplicating fold of `mergeRecent` keeps the accumulator duplicate
free. -/
theorem foldl_dedup_nodup (old : List Nat) (acc : List Nat) (hacc : acc.Nodup) :
    (old.foldl (fun acc id => if acc.contains id then acc else acc ++ [id]) acc).Nodup := by
  induction old generalizing acc with
  | nil => exact hacc
  | cons o rest ih =>
    simp only [List.foldl_cons]
    by_cases h : o ∈ acc
    · have h1 : (if acc.contains o then acc else acc ++ [o]) = acc := by simp [h]
      rw [h1]
      exact ih acc hacc
    · have h1 : (if acc.contains o then acc else acc ++ [o]) = acc ++ [o] := by simp [h]
      rw [h1]
      exact ih _ (by simp [List.nodup_append, hacc, h])

/-- The deduplicating fold appends exactly the not-yet-present previous ids,
in order, provided the previous list has no internal duplicates. -/
theorem foldl_dedup_eq_append (old : List Nat) (acc : List Nat) (hold : old.Nodup) :
    old.foldl (fun acc id => if acc.contains id then acc else acc ++ [id]) acc
      = acc ++ old.filter fun i => !acc.contains i := by
  induction old generalizing acc with
  | nil => simp
  | cons o rest ih =>
    have hrest : rest.Nodup := hold.of_cons
    have honotin : o ∉ rest := by
      intro hmem
      exact (List.nodup_cons.mp hold).1 hmem
    simp only [List.foldl_cons]
    by_cases h : o ∈ acc
    · have h1 : (if acc.contains o then acc else acc ++ [o]) = acc := by simp [h]
      rw [h1, ih _ hrest]
      simp [List.filter_cons, h]
    · have h1 : (if acc.contains o then acc else acc ++ [o]) = acc ++ [o] := by simp [h]
      rw [h1, ih _ hrest]
      have hcong : rest.filter (fun i => !(acc ++ [o]).contains i)
          = rest.filter fun i => !acc.contains i := by
        apply List.filter_congr
        intro x hx
        have hxo : x ≠ o := fun he => honotin (he ▸ hx)
        simp [List.mem_append, hxo]
      rw [hcong, List.append_assoc]
      simp [List.filter_cons, h]

theorem mergeRecent_nodup (ids old : List Nat) (h : ids.Nodup) :
    (mergeRecent ids old).Nodup :=
  (foldl_dedup_nodup old ids h).sublist (List.take_sublist _ _)

theorem mergeRecent_length (ids old : List Nat) :
    (mergeRecent ids old).length ≤ 20 := by
  simp [mergeRecent]

theorem mergeRecent_eq (ids old : List Nat) (hold : old.Nodup) :
    mergeRecent ids old = (ids ++ old.filter fun i => !ids.contains i).take 20 := by
  rw [mergeRecent, foldl_dedup_eq_append old ids hold]

theorem applyUsageCall_recencyOk (now : Int) (cache : LocalCache) (c : UsageCall)
    (hc : c.ids.Nodup) (h : RecencyOk cache) : RecencyOk (applyUsageCall now cache c) := by
  obtain ⟨h1, h2, h3, h4⟩ := h
  cases c with
  | participant ids =>
    exact ⟨mergeRecent_nodup ids _ hc, mergeRecent_length ids _, h3, h4⟩
  | checkUser ids =>
    exact ⟨h1, h2, mergeRecent_nodup ids _ hc, mergeRecent_length ids _⟩

theorem runUsageCalls_recencyOk (now : Int) (calls : List UsageCall) (cache : LocalCache)
    (hc : ∀ c ∈ calls, c.ids.Nodup) (h : RecencyOk cache) :
    RecencyOk (runUsageCalls now cache calls) := by
  induction calls generalizing cache with
  | nil => exact h
  | cons c rest ih =>
    exact ih _ (fun d hd => hc d (List.mem_cons_of_mem _ hd))
      (applyUsageCall_recencyOk now cache c (hc c (List.mem_cons_self _ _)) h)

/-- Suggestions in the sorted component output come from input files accepted
by the component predicate. -/
theorem mem_suggestedComponents {workDir : Str} {files : List DiffFile}
    {s : ComponentSuggestion}
    (hs : s ∈ (analyzeDiffForModules workDir files).suggestedComponents) :
    ∃ f ∈ files, isComponentFile f.path = true ∧ s = createComponentSuggestion workDir f := by
  have hmem : s ∈ files.filterMap fun f =>
      if isComponentFile f.path then some (createComponentSuggestion workDir f) else none :=
    (List.perm_insertionSort _ _).subset hs
  obtain ⟨f, hf, hfs⟩ := List.mem_filterMap.mp hmem
  by_cases hc : isComponentFile f.path
  · exact ⟨f, hf, hc, by simpa [hc] using hfs.symm⟩
  · simp [hc] at hfs

/-- Suggestions in the sorted function output come from input files accepted
by the function predicate. -/
theorem mem_suggestedFunctions {workDir : Str} {files : List DiffFile}
    {s : FunctionSuggestion}
    (hs : s ∈ (analyzeDiffForModules workDir files).suggestedFunctions) :
    ∃ f ∈ files, isFunctionFile f.path = true ∧ s = createFunctionSuggestion workDir f := by
  have hmem : s ∈ files.filterMap fun f =>
      if isFunctionFile f.path then some (createFunctionSuggestion workDir f) else none :=
    (List.perm_insertionSort _ _).subset hs
  obtain ⟨f, hf, hfs⟩ := List.mem_filterMap.mp hmem
  by_cases hc : isFunctionFile f.path
  · exact ⟨f, hf, hc, by simpa [hc] using hfs.symm⟩
  · simp [hc] at hfs

theorem isComponentFile_not_style {p : Str} (h : isComponentFile p = true) :
    isStyleFile p = false := by
  by_contra hs
  rw [isComponentFile, if_pos (by simpa using hs)] at h
  exact Bool.false_ne_true h

theorem isFunctionFile_not_style {p : Str} (h : isFunctionFile p = true) :
    isStyleFile p = false := by
  by_contra hs
  rw [isFunctionFile, if_pos (by simpa using hs)] at h
  exact Bool.false_ne_true h

/-- Characterization of the `[a-zA-Z0-9]*\.(vue|jsx|tsx|svelte)$` tail match:
the scanned string decomposes into an alphanumeric block followed by a dot
and one of the four extensions. -/
theorem matchAlnumDotExt_iff (rest : Str) :
    matchAlnumDotExt rest = true ↔
      ∃ mid ext, ext ∈ componentRegexExts ∧ (∀ ch ∈ mid, isAsciiAlnum ch = true) ∧
        rest = mid ++ '.' :: ext := by
  constructor
  · intro h
    simp only [matchAlnumDotExt, List.any_eq_true, Bool.and_eq_true] at h
    obtain ⟨ext, hmem, hsuf, hall⟩ := h
    rw [List.isSuffixOf_iff_suffix] at hsuf
    obtain ⟨mid, hmid⟩ := hsuf
    have hlen : rest.length - ('.' :: ext).length = mid.length := by
      rw [← hmid]
      simp
    have htake : rest.take (rest.length - ('.' :: ext).length) = mid := by
      rw [hlen, ← hmid, List.take_left]
    rw [htake, List.all_eq_true] at hall
    exact ⟨mid, ext, hmem, hall, hmid.symm⟩
  · rintro ⟨mid, ext, hmem, hall, rfl⟩
    simp only [matchAlnumDotExt, List.any_eq_true, Bool.and_eq_true]
    refine ⟨ext, hmem, ?_, ?_⟩
    · rw [List.isSuffixOf_iff_suffix]
      exact ⟨mid, rfl⟩
    · have hlen : (mid ++ '.' :: ext).length - ('.' :: ext).length = mid.length := by
        simp
      rw [hlen, List.take_left, List.all_eq_true]
      exact hall

/-- Characterization of the unanchored regex test on the basename: it holds
iff the basename has a decomposition `pre ++ c :: rest` with `c` uppercase and
`rest` an alphanumeric block followed by `.ext`. -/
theorem pascalExtTail_iff (b : Str) :
    pascalExtTail b = true ↔
      ∃ pre c rest, b = pre ++ c :: rest ∧ c.isUpper = true ∧
        matchAlnumDotExt rest = true := by
  induction b with
  | nil =>
    simp [pascalExtTail]
  | cons x xs ih =>
    rw [pascalExtTail, Bool.or_eq_true, Bool.and_eq_true, ih]
    constructor
    · rintro (⟨hu, hm⟩ | ⟨pre, c, rest, heq, hu, hm⟩)
      · exact ⟨[], x, xs, rfl, hu, hm⟩
      · exact ⟨x :: pre, c, rest, by rw [heq]; rfl, hu, hm⟩
    · rintro ⟨pre, c, rest, heq, hu, hm⟩
      cases pre with
      | nil =>
        rw [List.nil_append, List.cons.injEq] at heq
        exact Or.inl ⟨heq.1 ▸ hu, heq.2 ▸ hm⟩
      | cons y pre' =>
        rw [List.cons_append, List.cons.injEq] at heq
        exact Or.inr ⟨pre', c, rest, heq.2, hu, hm⟩

/-! ## Claim C1 -/

/-- C1 (counterexample): `app/myComponent.tsx` is not a stylesheet, contains
none of the component path fragments, and its basename starts with the
lower-case letter `m` — so the claimed predicate (fragment OR extension +
PascalCase basename) is false — yet the classifier marks it a component,
because the PascalCase regex is unanchored and matches the embedded
`Component.tsx`. -/
theorem C1_counterexample :
    isStyleFile "app/myComponent.tsx".toList = false ∧
      isComponentFile "app/myComponent.tsx".toList = true ∧
      (∀ frag ∈ componentPaths, includes "app/myComponent.tsx".toList frag = false) ∧
      (basename "app/myComponent.tsx".toList).headD ' ' = 'm' ∧
      ('m'.isUpper = false) :=
  ⟨by decide, by decide, by decide, by decide, by decide⟩

/-- C1 (amended): for a non-stylesheet file, the classifier marks it a
component iff its path contains one of the fragments `/components/`,
`/widgets/`, `/ui/`, `/component/`, or its path ends in one of `.vue`,
`.jsx`, `.tsx`, `.svelte` and its basename contains an uppercase letter
followed only by alphanumerics up to the final `.ext` — the unanchored
PascalCase regex; the basename need not *start* with the uppercase letter. -/
theorem C1_component_predicate_amended (p : Str) (h : isStyleFile p = false) :
    isComponentFile p = true ↔
      (∃ frag ∈ componentPaths, includes p frag = true) ∨
        ((∃ ext ∈ componentExtensions, endsWith p ext = true) ∧
          ∃ pre c mid ext, ext ∈ componentRegexExts ∧ c.isUpper = true ∧
            (∀ ch ∈ mid, isAsciiAlnum ch = true) ∧
            basename p = pre ++ c :: (mid ++ '.' :: ext)) := by
  rw [isComponentFile, if_neg (by simp [h])]
  simp only [Bool.or_eq_true, Bool.and_eq_true, List.any_eq_true, pascalExtTail_iff]
  constructor
  · rintro (hfrag | ⟨hext, pre, c, rest, heq, hu, hm⟩)
    · exact Or.inl hfrag
    · obtain ⟨mid, ext, hmem, hall, rfl⟩ := (matchAlnumDotExt_iff rest).mp hm
      exact Or.inr ⟨hext, pre, c, mid, ext, hmem, hu, hall, heq⟩
  · rintro (hfrag | ⟨hext, pre, c, mid, ext, hmem, hu, hall, heq⟩)
    · exact Or.inl hfrag
    · refine Or.inr ⟨hext, pre, c, mid ++ '.' :: ext, heq, hu, ?_⟩
      exact (matchAlnumDotExt_iff _).mpr ⟨mid, ext, hmem, hall, rfl⟩

/-- C1 (witness): the amended equivalence applied to the non-stylesheet path
`app/Button.vue`. -/
theorem C1_witness :
    isStyleFile "app/Button.vue".toList = false ∧
      (isComponentFile "app/Button.vue".toList = true ↔
        (∃ frag ∈ componentPaths, includes "app/Button.vue".toList frag = true) ∨
          ((∃ ext ∈ componentExtensions, endsWith "app/Button.vue".toList ext = true) ∧
            ∃ pre c mid ext, ext ∈ componentRegexExts ∧ c.isUpper = true ∧
              (∀ ch ∈ mid, isAsciiAlnum ch = true) ∧
              basename "app/Button.vue".toList = pre ++ c :: (mid ++ '.' :: ext))) :=
  ⟨by decide, C1_component_predicate_amended _ (by decide)⟩

/-! ## Claim C3 -/

/-- C3 (counterexample): recording the id list `[1, 1]` — a single call whose
argument repeats an id — from the default record leaves `recentParticipants`
equal to `[1, 1]`, which is not duplicate-free, so the recency lists do not
stay de-duplicated for *every* sequence of usage-recording calls. -/
theorem C3_counterexample :
    (runUsageCalls 0 (getDefaultCache 0) [UsageCall.participant [1, 1]]).recentParticipants
        = [1, 1] ∧
      ¬ (runUsageCalls 0 (getDefaultCache 0)
          [UsageCall.participant [1, 1]]).recentParticipants.Nodup := by
  constructor
  · decide
  · decide

/-- C3 (amended): provided every usage-recording call passes pairwise-distinct
ids, each recency list stays duplicate-free with length at most 20 across any
sequence of `recordParticipantUsage` / `recordCheckUserUsage` calls from the
default record; a single call prepends the new ids and keeps the surviving
previous ids behind them (a move-to-front merge capped at 20); and after
recording 25 distinct participant ids one at a time, `recentParticipants` is
exactly the 20 most recent ids, most recent first. -/
theorem C3_recency_invariant_amended (now : Int) (calls : List UsageCall)
    (h : ∀ c ∈ calls, c.ids.Nodup) :
    RecencyOk (runUsageCalls now (getDefaultCache now) calls) ∧
      (∀ (t : Int) (cache : LocalCache) (ids : List Nat), cache.recentParticipants.Nodup →
        (updateParticipantUsage t cache ids).recentParticipants
          = (ids ++ cache.recentParticipants.filter fun i => !ids.contains i).take 20) ∧
      (runUsageCalls 0 (getDefaultCache 0)
          ((List.range 25).map fun i => UsageCall.participant [i + 1])).recentParticipants
        = (List.range 20).map fun i => 25 - i := by
  refine ⟨?_, ?_, by decide⟩
  · exact runUsageCalls_recencyOk now calls _ h
      ⟨List.nodup_nil, by simp [getDefaultCache], List.nodup_nil, by simp [getDefaultCache]⟩
  · intro t cache ids hnd
    simpa [updateParticipantUsage] using mergeRecent_eq ids cache.recentParticipants hnd

/-- C3 (witness): the amended invariant applied to the concrete call sequence
`participant [1, 2]; checkUser [3]`. -/
theorem C3_witness :
    RecencyOk (runUsageCalls 0 (getDefaultCache 0)
      [UsageCall.participant [1, 2], UsageCall.checkUser [3]]) :=
  (C3_recency_invariant_amended 0 [UsageCall.participant [1, 2], UsageCall.checkUser [3]]
    (by decide)).1

/-! ## Claim C4 -/

/-- C4: `loadCache` returns the fresh default record — empty recency lists and
empty file-type weights — whenever the persisted document is absent, fails to
parse, or is more than 30 days old; the stale content is discarded rather than
merged; and (last conjunct) no load ever modifies the persisted file, in
particular the stale document is not deleted.  `loadCache` is a total
function, so no read or parse error reaches the caller. -/
theorem C4_load_fresh_default (now : Int) (disk : CacheFileState)
    (h : disk = CacheFileState.absent ∨ disk = CacheFileState.corrupt ∨
      ∃ c, disk = CacheFileState.stored c ∧ now - c.lastUpdated > cacheExpiryMs) :
    loadCache now disk = (getDefaultCache now, disk) ∧
      (getDefaultCache now).recentParticipants = [] ∧
      (getDefaultCache now).recentCheckUsers = [] ∧
      (getDefaultCache now).fileReviewerPreferences = [] ∧
      ∀ d : CacheFileState, (loadCache now d).2 = d := by
  refine ⟨?_, rfl, rfl, rfl, ?_⟩
  · rcases h with h | h | ⟨c, h, hc⟩
    · rw [h]
      rfl
    · rw [h]
      rfl
    · rw [h]
      simp [loadCache, pathExists, readJsonCache, hc]
  · intro d
    cases d with
    | absent => rfl
    | corrupt => rfl
    | stored c =>
      by_cases hc : now - c.lastUpdated > cacheExpiryMs
      · simp [loadCache, pathExists, readJsonCache, hc]
      · simp [loadCache, pathExists, readJsonCache, hc]

/-- C4 (witness): the theorem applied to an unparseable document at time 0. -/
theorem C4_witness :
    loadCache 0 CacheFileState.corrupt = (getDefaultCache 0, CacheFileState.corrupt) ∧
      (getDefaultCache 0).recentParticipants = [] :=
  ⟨(C4_load_fresh_default 0 CacheFileState.corrupt (Or.inr (Or.inl rfl))).1,
    (C4_load_fresh_default 0 CacheFileState.corrupt (Or.inr (Or.inl rfl))).2.1⟩

/-! ## Claim C5 -/

/-- C5: a diff file whose (lower-cased) path ends in one of the stylesheet
extensions appears in neither the component output nor the function output of
the classifier: no suggestion in either list carries such a path. -/
theorem C5_style_files_excluded (workDir : Str) (files : List DiffFile) (f : DiffFile)
    (hf : isStyleFile f.path = true) :
    (∀ s ∈ (analyzeDiffForModules workDir files).suggestedComponents, s.path ≠ f.path) ∧
      ∀ s ∈ (analyzeDiffForModules workDir files).suggestedFunctions, s.path ≠ f.path := by
  constructor
  · intro s hs heq
    obtain ⟨g, _, hg, rfl⟩ := mem_suggestedComponents hs
    have hstyle : isStyleFile g.path = false := isComponentFile_not_style hg
    have hpath : g.path = f.path := heq
    rw [hpath, hf] at hstyle
    simp at hstyle
  · intro s hs heq
    obtain ⟨g, _, hg, rfl⟩ := mem_suggestedFunctions hs
    have hstyle : isStyleFile g.path = false := isFunctionFile_not_style hg
    have hpath : g.path = f.path := heq
    rw [hpath, hf] at hstyle
    simp at hstyle

/-- C5 (witness): the exclusion applied to the concrete stylesheet file
`src/styles/app.css` inside a three-file diff. -/
theorem C5_witness :
    (∀ s ∈ (analyzeDiffForModules []
        [⟨"src/components/UserCard.tsx".toList, FileStatus.A, none, none⟩,
         ⟨"src/pages/login/index.ts".toList, FileStatus.M, none, none⟩,
         ⟨"src/styles/app.css".toList, FileStatus.M, none, none⟩]).suggestedComponents,
      s.path ≠ "src/styles/app.css".toList) ∧
      ∀ s ∈ (analyzeDiffForModules []
        [⟨"src/components/UserCard.tsx".toList, FileStatus.A, none, none⟩,
         ⟨"src/pages/login/index.ts".toList, FileStatus.M, none, none⟩,
         ⟨"src/styles/app.css".toList, FileStatus.M, none, none⟩]).suggestedFunctions,
      s.path ≠ "src/styles/app.css".toList :=
  C5_style_files_excluded []
    [⟨"src/components/UserCard.tsx".toList, FileStatus.A, none, none⟩,
     ⟨"src/pages/login/index.ts".toList, FileStatus.M, none, none⟩,
     ⟨"src/styles/app.css".toList, FileStatus.M, none, none⟩]
    ⟨"src/styles/app.css".toList, FileStatus.M, none, none⟩ (by decide)

/-! ## Claim C7 -/

/-- C7: the index-file disambiguation separates sibling directories — the
component names derived for `a/b/index.vue` and `a/c/index.vue` differ
(`(Vue) aB` versus `(Vue) aC`). -/
theorem C7_index_names_differ :
    (createComponentSuggestion [] ⟨"a/b/index.vue".toList, FileStatus.M, none, none⟩).name ≠
      (createComponentSuggestion [] ⟨"a/c/index.vue".toList, FileStatus.M, none, none⟩).name := by
  decide

/-! ## Claim C8 -/

/-- C8: the classifier is a pure, deterministic function of its input — run
twice in sequence over the shared mutable world (the persisted cache file),
both runs return the same fully ordered output and the world is left exactly
as it was, i.e. no I/O is performed. -/
theorem C8_classifier_pure (workDir : Str) (diffFiles : List DiffFile)
    (world : CacheFileState) :
    (analyzeDiffTwice workDir diffFiles world).1.1
        = (analyzeDiffTwice workDir diffFiles world).1.2 ∧
      (analyzeDiffTwice workDir diffFiles world).2 = world :=
  ⟨rfl, rfl⟩

/-- Pointwise agreement of the source's falsy `||` fallback chain with the
`Option`-based amended specification. -/
theorem assignReviewer_byType_eq (m : List (Str × Nat)) (choices : List ChoiceItem)
    (f : SelectedFile) :
    (assignReviewer { mode := .byType, typeBasedMapping := m } choices f).1
      = byTypeSpecReviewer m choices f.relativePath := by
  simp only [assignReviewer, byTypeSpecReviewer, jsOrNat, jsLookupNum]
  cases hm : m.lookup (jsExtOrOther f.relativePath) with
  | none =>
    cases ho : m.lookup ".other".toList with
    | none => simp [hm, ho]
    | some w =>
      by_cases hw : w = 0
      · simp [hm, ho, hw]
      · simp [hm, ho, hw]
  | some v =>
    by_cases hv : v = 0
    · cases ho : m.lookup ".other".toList with
      | none => simp [hm, ho, hv]
      | some w =>
        by_cases hw : w = 0
        · simp [hm, ho, hv, hw]
        · simp [hm, ho, hv, hw]
    · simp [hm, hv]

/-! ## Claim C2 -/

/-- C2 (counterexample): with `typeBasedMapping = {'.ts': 0}` the extension
`.ts` *is* configured, yet `execute` assigns the first reviewer choice `7`
instead of the mapped reviewer `0`, because the `||` chain treats the mapped
value `0` as falsy — refuting "assigns every candidate file the reviewer
mapped for its lower-cased extension". -/
theorem C2_counterexample :
    (({ mode := .byType, typeBasedMapping := [(".ts".toList, 0)] } :
        BatchAssignmentOptions).typeBasedMapping.lookup
          (jsExtOrOther "a.ts".toList) = some 0) ∧
      ((executeBatchAssignment [⟨"a".toList, "a.ts".toList⟩]
          { mode := .byType, typeBasedMapping := [(".ts".toList, 0)] }
          [⟨"u".toList, 7, []⟩]).1.map (·.reviewerId) = [7]) ∧
      (7 : Nat) ≠ 0 :=
  ⟨by decide, by decide, by decide⟩

/-- C2 (amended): in byType mode `execute` assigns each file the reviewer
mapped for its lower-cased extension whenever that mapping is present with a
nonzero id; a zero or missing mapping falls back to the `.other` mapping
(again only when present and nonzero), and then to the first entry of
`reviewerChoices`; each result's reason cites the extension.  The concrete
scenario of the claim (two `.tsx` files at reviewer 3, one `.ts` file at
reviewer 5) holds. -/
theorem C2_byType_assignment_amended (files : List SelectedFile) (m : List (Str × Nat))
    (choices : List ChoiceItem) (_hchoices : choices ≠ []) :
    ((executeBatchAssignment files { mode := .byType, typeBasedMapping := m } choices).1.map
        (·.reviewerId) = files.map fun f => byTypeSpecReviewer m choices f.relativePath) ∧
      ((executeBatchAssignment files { mode := .byType, typeBasedMapping := m } choices).1.map
          (·.assignmentReason)
        = files.map fun f => "文件类型: ".toList ++ jsExtOrOther f.relativePath) ∧
      ((executeBatchAssignment
          [⟨"CardA".toList, "src/components/CardA.tsx".toList⟩,
           ⟨"CardB".toList, "src/components/CardB.tsx".toList⟩,
           ⟨"util".toList, "src/utils/util.ts".toList⟩]
          { mode := .byType, typeBasedMapping := [(".tsx".toList, 3), (".ts".toList, 5)] }
          [⟨"u1".toList, 3, []⟩, ⟨"u2".toList, 5, []⟩]).1.map
            fun r => (r.reviewerId, r.assignmentReason))
        = [(3, "文件类型: .tsx".toList), (3, "文件类型: .tsx".toList),
           (5, "文件类型: .ts".toList)] := by
  refine ⟨?_, ?_, by decide⟩
  · show (files.map (assignOne { mode := .byType, typeBasedMapping := m } choices)).map
        (·.reviewerId) = _
    rw [List.map_map]
    have hfun : ((fun r : AssignmentResult => r.reviewerId) ∘
          assignOne { mode := .byType, typeBasedMapping := m } choices)
        = fun f => byTypeSpecReviewer m choices f.relativePath :=
      funext fun f => assignReviewer_byType_eq m choices f
    rw [hfun]
  · show (files.map (assignOne { mode := .byType, typeBasedMapping := m } choices)).map
        (·.assignmentReason) = _
    rw [List.map_map]
    rfl

/-- C2 (witness): the amended byType theorem applied to the claim's concrete
scenario. -/
theorem C2_witness :
    ([(⟨"u1".toList, 3, []⟩ : ChoiceItem), ⟨"u2".toList, 5, []⟩] ≠ []) ∧
      ((executeBatchAssignment
          [⟨"CardA".toList, "src/components/CardA.tsx".toList⟩,
           ⟨"CardB".toList, "src/components/CardB.tsx".toList⟩,
           ⟨"util".toList, "src/utils/util.ts".toList⟩]
          { mode := .byType, typeBasedMapping := [(".tsx".toList, 3), (".ts".toList, 5)] }
          [⟨"u1".toList, 3, []⟩, ⟨"u2".toList, 5, []⟩]).1.map (·.reviewerId)
        = ([⟨"CardA".toList, "src/components/CardA.tsx".toList⟩,
            ⟨"CardB".toList, "src/components/CardB.tsx".toList⟩,
            ⟨"util".toList, "src/utils/util.ts".toList⟩] : List SelectedFile).map fun f =>
            byTypeSpecReviewer [(".tsx".toList, 3), (".ts".toList, 5)]
              [⟨"u1".toList, 3, []⟩, ⟨"u2".toList, 5, []⟩] f.relativePath) :=
  ⟨by decide,
    (C2_byType_assignment_amended
      [⟨"CardA".toList, "src/components/CardA.tsx".toList⟩,
       ⟨"CardB".toList, "src/components/CardB.tsx".toList⟩,
       ⟨"util".toList, "src/utils/util.ts".toList⟩]
      [(".tsx".toList, 3), (".ts".toList, 5)]
      [⟨"u1".toList, 3, []⟩, ⟨"u2".toList, 5, []⟩] (by decide)).1⟩

/-! ## Grouping lemmas (shared by the preview and the type analysis) -/

theorem strLookup_cons_self {β : Type} (k : Str) (v : β) (es : List (Str × β)) :
    ((k, v) :: es).lookup k = some v := by
  simp [List.lookup_cons]

theorem strLookup_cons_ne {β : Type} {a k : Str} (v : β) (es : List (Str × β))
    (h : a ≠ k) : ((k, v) :: es).lookup a = es.lookup a := by
  have hb : (a == k) = false := by simpa using h
  simp [List.lookup_cons, hb]

theorem jsGroupPush_lookup_self {α : Type} (gs : List (Str × List α)) (k : Str) (x : α) :
    ∃ g, (jsGroupPush gs k x).lookup k = some g ∧ x ∈ g := by
  induction gs with
  | nil => exact ⟨[x], strLookup_cons_self k [x] [], by simp⟩
  | cons e gs ih =>
    obtain ⟨k0, xs⟩ := e
    simp only [jsGroupPush]
    by_cases h : k0 = k
    · subst h
      rw [if_pos rfl]
      exact ⟨xs ++ [x], strLookup_cons_self k0 (xs ++ [x]) gs, by simp⟩
    · rw [if_neg h]
      obtain ⟨g, hg, hx⟩ := ih
      exact ⟨g, by rw [strLookup_cons_ne xs _ fun he => h he.symm]; exact hg, hx⟩

theorem jsGroupPush_lookup_mono {α : Type} {gs : List (Str × List α)} {k' : Str}
    {g : List α} {y : α} (hg : gs.lookup k' = some g) (hy : y ∈ g) (k : Str) (x : α) :
    ∃ g', (jsGroupPush gs k x).lookup k' = some g' ∧ y ∈ g' := by
  induction gs with
  | nil => simp at hg
  | cons e gs ih =>
    obtain ⟨k0, xs⟩ := e
    simp only [jsGroupPush]
    by_cases hk : k' = k0
    · subst hk
      rw [strLookup_cons_self k' xs gs] at hg
      have hxs : xs = g := Option.some.inj hg
      subst hxs
      by_cases h : k' = k
      · rw [if_pos h]
        exact ⟨xs ++ [x], strLookup_cons_self k' (xs ++ [x]) gs, by simp [hy]⟩
      · rw [if_neg h]
        exact ⟨xs, strLookup_cons_self k' xs _, hy⟩
    · rw [strLookup_cons_ne xs gs hk] at hg
      by_cases h : k0 = k
      · rw [if_pos h]
        exact ⟨g, by rw [strLookup_cons_ne (xs ++ [x]) gs hk]; exact hg, hy⟩
      · rw [if_neg h]
        obtain ⟨g', hgr, hyr⟩ := ih hg
        exact ⟨g', by rw [strLookup_cons_ne xs _ hk]; exact hgr, hyr⟩

theorem foldl_groupPush_preserve {α : Type} (keyOf : α → Str) (l : List α)
    {acc : List (Str × List α)} {k' : Str} {g : List α} {y : α}
    (hg : acc.lookup k' = some g) (hy : y ∈ g) :
    ∃ g', (l.foldl (fun gs x => jsGroupPush gs (keyOf x) x) acc).lookup k' = some g' ∧
      y ∈ g' := by
  induction l generalizing acc g with
  | nil => exact ⟨g, hg, hy⟩
  | cons a l ih =>
    obtain ⟨g1, hg1, hy1⟩ := jsGroupPush_lookup_mono hg hy (keyOf a) a
    exact ih hg1 hy1

theorem foldl_groupPush_mem {α : Type} (keyOf : α → Str) (l : List α)
    (acc : List (Str × List α)) (f : α) (hf : f ∈ l) :
    ∃ g, (l.foldl (fun gs x => jsGroupPush gs (keyOf x) x) acc).lookup (keyOf f)
        = some g ∧ f ∈ g := by
  induction l generalizing acc with
  | nil => simp at hf
  | cons a l ih =>
    rcases List.mem_cons.mp hf with rfl | hmem
    · obtain ⟨g, hg, hx⟩ := jsGroupPush_lookup_self acc (keyOf f) f
      exact foldl_groupPush_preserve keyOf l hg hx
    · exact ih _ hmem

theorem flatten_jsGroupPush {α : Type} (gs : List (Str × List α)) (k : Str) (x : α) :
    ((jsGroupPush gs k x).map Prod.snd).flatten.Perm
      (x :: (gs.map Prod.snd).flatten) := by
  induction gs with
  | nil => simp [jsGroupPush]
  | cons e gs ih =>
    obtain ⟨k0, xs⟩ := e
    simp only [jsGroupPush]
    by_cases h : k0 = k
    · rw [if_pos h]
      simp only [List.map_cons, List.flatten_cons]
      rw [List.append_assoc, List.singleton_append]
      exact List.perm_middle
    · rw [if_neg h]
      simp only [List.map_cons, List.flatten_cons]
      exact List.Perm.trans (ih.append_left xs) List.perm_middle

theorem flatten_groupFold {α : Type} (keyOf : α → Str) (l : List α)
    (gs : List (Str × List α)) :
    ((l.foldl (fun g x => jsGroupPush g (keyOf x) x) gs).map Prod.snd).flatten.Perm
      ((gs.map Prod.snd).flatten ++ l) := by
  induction l generalizing gs with
  | nil => simp
  | cons a l ih =>
    refine List.Perm.trans (ih _) ?_
    refine List.Perm.trans ((flatten_jsGroupPush gs (keyOf a) a).append_right l) ?_
    exact List.perm_middle.symm

/-! ## Claim C9 -/

/-- C9: `showAssignmentPreview` makes no persistence calls (its trace is
empty), returns exactly the operator's disposition, and its reviewer grouping
is merely a rearrangement of the untouched input results; consequently after
`execute` followed by a `Cancelled` preview the combined persistence trace is
exactly the trace already recorded during `execute`. -/
theorem C9_preview_frame (results : List AssignmentResult) (answer : PreviewAction)
    (files : List SelectedFile) (opts : BatchAssignmentOptions)
    (choices : List ChoiceItem) :
    (showAssignmentPreview results answer).2.2 = [] ∧
      (showAssignmentPreview results answer).1 = answer ∧
      ((showAssignmentPreview results answer).2.1.map Prod.snd).flatten.Perm results ∧
      (batchRun files opts choices PreviewAction.cancel).2.1
        = (executeBatchAssignment files opts choices).2 := by
  refine ⟨rfl, rfl, ?_, ?_⟩
  · have h := flatten_groupFold (fun r : AssignmentResult => r.reviewerName) results []
    simpa using h
  · simp [batchRun, showAssignmentPreview]

/-! ## Claim C10 -/

/-- C10 (counterexample): for the extension-less file `README` the synthetic
`.other` mapping *exists* (it maps to reviewer `0`), yet `execute` assigns the
first reviewer choice `7` — the `||` chain skips a zero `.other` mapping, so
"assigned typeBasedMapping['.other'] when that mapping exists" fails. -/
theorem C10_counterexample :
    extname "README".toList = [] ∧
      (({ mode := .byType, typeBasedMapping := [(".other".toList, 0)] } :
          BatchAssignmentOptions).typeBasedMapping.lookup ".other".toList = some 0) ∧
      ((executeBatchAssignment [⟨"R".toList, "README".toList⟩]
          { mode := .byType, typeBasedMapping := [(".other".toList, 0)] }
          [⟨"u".toList, 7, []⟩]).1.map (·.reviewerId) = [7]) ∧
      (7 : Nat) ≠ 0 :=
  ⟨by decide, by decide, by decide, by decide⟩

/-- C10 (amended): a candidate file whose `relativePath` has no dot-extension
is treated as having the synthetic extension `.other` in byType mode: the type
analysis groups it under `.other`; `execute` (which maps `assignOne` over the
candidates) assigns it the `.other` mapping when that mapping is present with
a nonzero id and otherwise the first entry of `reviewerChoices`; and its
reason cites `.other`. -/
theorem C10_no_extension_amended (files : List SelectedFile) (f : SelectedFile)
    (m : List (Str × Nat)) (choices : List ChoiceItem)
    (h1 : extname f.relativePath = []) (h2 : f ∈ files) (_hchoices : choices ≠ []) :
    (∃ g, (analyzeFileTypes files).lookup ".other".toList = some g ∧ f ∈ g) ∧
      ((executeBatchAssignment files { mode := .byType, typeBasedMapping := m } choices).1
        = files.map (assignOne { mode := .byType, typeBasedMapping := m } choices)) ∧
      ((assignOne { mode := .byType, typeBasedMapping := m } choices f).reviewerId
        = match m.lookup ".other".toList with
          | some v => if v ≠ 0 then v else firstChoiceValue choices
          | none => firstChoiceValue choices) ∧
      (assignOne { mode := .byType, typeBasedMapping := m } choices f).assignmentReason
        = "文件类型: .other".toList := by
  have hext : jsExtOrOther f.relativePath = ".other".toList := by
    simp [jsExtOrOther, h1, toLowerStr]
  refine ⟨?_, rfl, ?_, ?_⟩
  · have h := foldl_groupPush_mem (fun f : SelectedFile => jsExtOrOther f.relativePath)
      files [] f h2
    simp only [hext] at h
    exact h
  · have he : (assignOne { mode := .byType, typeBasedMapping := m } choices f).reviewerId
        = byTypeSpecReviewer m choices f.relativePath :=
      assignReviewer_byType_eq m choices f
    rw [he, byTypeSpecReviewer]
    simp only [hext]
    cases ho : m.lookup ".other".toList with
    | none => simp [ho]
    | some w =>
      by_cases hw : w = 0
      · simp [ho, hw]
      · simp [ho, hw]
  · have : (assignOne { mode := .byType, typeBasedMapping := m } choices f).assignmentReason
        = "文件类型: ".toList ++ jsExtOrOther f.relativePath := rfl
    rw [this, hext]
    decide

/-- C10 (witness): the amended no-extension behaviour at the concrete file
`README` with `.other` mapped to reviewer 4. -/
theorem C10_witness :
    (∃ g, (analyzeFileTypes [⟨"R".toList, "README".toList⟩]).lookup ".other".toList
        = some g ∧ (⟨"R".toList, "README".toList⟩ : SelectedFile) ∈ g) ∧
      ((assignOne
          { mode := .byType, typeBasedMapping := [(".other".toList, 4)] }
          [⟨"u".toList, 7, []⟩] ⟨"R".toList, "README".toList⟩).reviewerId
        = match ([((".other".toList : Str), (4 : Nat))]).lookup ".other".toList with
          | some v => if v ≠ 0 then v else firstChoiceValue [⟨"u".toList, 7, []⟩]
          | none => firstChoiceValue [⟨"u".toList, 7, []⟩]) :=
  ⟨(C10_no_extension_amended [⟨"R".toList, "README".toList⟩] ⟨"R".toList, "README".toList⟩
      [(".other".toList, 4)] [⟨"u".toList, 7, []⟩] (by decide) (by simp) (by decide)).1,
    (C10_no_extension_amended [⟨"R".toList, "README".toList⟩] ⟨"R".toList, "README".toList⟩
      [(".other".toList, 4)] [⟨"u".toList, 7, []⟩] (by decide) (by simp) (by decide)).2.2.1⟩

/-! ## Stability of the weight sort (for the recommendation) -/

/-- Filtering commutes with an ordered insert provided every element the
insert can jump over fails the filter whenever the inserted one passes it. -/
theorem filter_orderedInsert {α : Type} (r : α → α → Prop) [DecidableRel r]
    (p : α → Bool) (a : α) (s : List α)
    (h : ∀ b ∈ s, ¬ r a b → p a = true → p b = false) :
    (s.orderedInsert r a).filter p
      = if p a then a :: s.filter p else s.filter p := by
  induction s with
  | nil =>
    by_cases hpa : p a <;> simp [List.orderedInsert, hpa]
  | cons b s ih =>
    by_cases hr : r a b
    · rw [List.orderedInsert, if_pos hr]
      by_cases hpa : p a <;> simp [List.filter_cons, hpa]
    · rw [List.orderedInsert, if_neg hr]
      have ih' := ih fun c hc => h c (List.mem_cons_of_mem _ hc)
      by_cases hpa : p a
      · have hpb : p b = false := h b (List.mem_cons_self _ _) hr hpa
        simp [List.filter_cons, hpb, hpa, ih']
      · simp [List.filter_cons, hpa, ih']

/-- Insertion sort never reorders across the filter when elements passing the
filter can only be jumped over by elements that fail it: the sorted list
restricted to the filter equals the input restricted to the filter.  This is
the stability property of the (stable) sort used by the model. -/
theorem filter_insertionSort {α : Type} (r : α → α → Prop) [DecidableRel r]
    (p : α → Bool) (l : List α)
    (h : ∀ a b : α, ¬ r a b → p a = true → p b = false) :
    (l.insertionSort r).filter p = l.filter p := by
  induction l with
  | nil => rfl
  | cons a l ih =>
    rw [List.insertionSort, filter_orderedInsert r p a _ (fun b _ => h a b), ih,
      List.filter_cons]

/-- A pairwise property of the filtered list lifts to a conditional pairwise
property of the whole list. -/
theorem pairwise_of_pairwise_filter {α : Type} {p : α → Bool} {S : α → α → Prop}
    {l : List α} (h : (l.filter p).Pairwise S) :
    l.Pairwise fun a b => p a = true → p b = true → S a b := by
  induction l with
  | nil => exact List.Pairwise.nil
  | cons a l ih =>
    rw [List.filter_cons] at h
    by_cases hpa : p a
    · rw [if_pos hpa] at h
      rw [List.pairwise_cons] at h ⊢
      obtain ⟨hall, hrest⟩ := h
      exact ⟨fun b hb _ hpb => hall b (List.mem_filter.mpr ⟨hb, hpb⟩), ih hrest⟩
    · rw [if_neg hpa] at h
      rw [List.pairwise_cons]
      exact ⟨fun b _ hpa' _ => absurd hpa' hpa, ih h⟩

/-- The recommendation's doubly sorted entry list is strictly ordered by
"higher weight first, then smaller reviewer id": the second (stable) sort
orders by descending weight, and inside a weight class the ascending-key
enumeration order of `Object.entries` survives. -/
theorem sortedEntries_pairwise (m : List (Nat × Nat)) (hm : (m.map Prod.fst).Nodup) :
    ((jsEntriesNat m).insertionSort weightLE).Pairwise weightKeyLT := by
  have hperm_e : (jsEntriesNat m).Perm m := List.perm_insertionSort keyLE m
  have hkeysorted : (jsEntriesNat m).Pairwise keyLE := List.sorted_insertionSort keyLE m
  have hkeynodup : ((jsEntriesNat m).map Prod.fst).Nodup :=
    ((hperm_e.map Prod.fst).nodup_iff).mpr hm
  have hkeyne : (jsEntriesNat m).Pairwise fun a b => a.1 ≠ b.1 :=
    List.pairwise_map.mp hkeynodup
  have hkeylt : (jsEntriesNat m).Pairwise fun a b => a.1 < b.1 := by
    refine List.Pairwise.imp ?_ (hkeysorted.and hkeyne)
    intro a b hab
    exact Nat.lt_of_le_of_ne hab.1 hab.2
  have hwsorted : ((jsEntriesNat m).insertionSort weightLE).Pairwise weightLE :=
    List.sorted_insertionSort weightLE _
  have hfilter : ∀ w, ((jsEntriesNat m).insertionSort weightLE).filter (fun x => x.2 == w)
      = (jsEntriesNat m).filter fun x => x.2 == w := by
    intro w
    refine filter_insertionSort weightLE _ _ ?_
    intro a b hr hpa
    have hab : a.2 < b.2 := Nat.lt_of_not_le hr
    have hpa' : a.2 = w := by simpa using hpa
    have hne : b.2 ≠ w := by omega
    simpa using hne
  have hSw : ∀ w, ((jsEntriesNat m).insertionSort weightLE).Pairwise
      fun a b => (a.2 == w) = true → (b.2 == w) = true → a.1 < b.1 := by
    intro w
    have h1 : (((jsEntriesNat m).insertionSort weightLE).filter (fun x => x.2 == w)).Pairwise
        fun a b : Nat × Nat => a.1 < b.1 := by
      rw [hfilter w]
      exact hkeylt.filter _
    exact pairwise_of_pairwise_filter h1
  rw [List.pairwise_iff_forall_sublist]
  intro a b hab
  have hw : weightLE a b := List.pairwise_iff_forall_sublist.mp hwsorted hab
  by_cases heq : b.2 = a.2
  · refine Or.inr ⟨heq, ?_⟩
    have h2 := List.pairwise_iff_forall_sublist.mp (hSw a.2) hab
    exact h2 (by simp) (by simp [heq])
  · exact Or.inl (Nat.lt_of_le_of_ne hw heq)

/-! ## Claim C6 -/

/-- C6 (counterexample): build the weight map by recording reviewer 9 five
times and then reviewer 7 five times for `.ts` files — so 9 is first-seen in
the map and the weights tie at 5.  With both reviewers available the code
returns 7, not the first-seen 9: `Object.entries` enumerates the numeric
reviewer keys in ascending order, so ties break towards the smaller id. -/
theorem C6_counterexample :
    ((List.replicate 5 9 ++ List.replicate 5 7).foldl
        (fun c r => updateFileReviewerPreference 0 c "x.ts".toList r)
        (getDefaultCache 0)).fileReviewerPreferences
      = [(".ts".toList, [(9, 5), (7, 5)])] ∧
      getRecommendedReviewerForFile
        { fileReviewerPreferences := [(".ts".toList, [(9, 5), (7, 5)])] }
        "x.ts".toList [⟨9, "first".toList⟩, ⟨7, "second".toList⟩] = some 7 ∧
      some 7 ≠ some (9 : Nat) :=
  ⟨by decide, by decide, by decide⟩

/-- C6 (amended): for an extension with a recorded weight map (with the unique
reviewer-id keys produced by `updateFileReviewerPreference`),
`getRecommendedReviewerForFile` returns none iff no weighted reviewer is
available, and any returned reviewer is an available weighted reviewer of
maximal weight, where ties are broken towards the *smallest* reviewer id
(JS integer-key enumeration order) — not first-seen order.  The claim's
concrete scenarios hold: weights `{'.ts': {7:3, 9:5}}` give 9 when both are
available and 7 when only 7 is. -/
theorem C6_recommendation_amended (cache : LocalCache) (filePath : Str)
    (avail : List UserInfo) (m : List (Nat × Nat))
    (hm : cache.fileReviewerPreferences.lookup (toLowerStr (extname filePath)) = some m)
    (hkeys : (m.map Prod.fst).Nodup) :
    (getRecommendedReviewerForFile cache filePath avail = none ↔
        ∀ e ∈ m, ∀ u ∈ avail, u.id ≠ e.1) ∧
      (∀ r, getRecommendedReviewerForFile cache filePath avail = some r →
        ∃ w, (r, w) ∈ m ∧ (∃ u ∈ avail, u.id = r) ∧
          ∀ e ∈ m, (∃ u ∈ avail, u.id = e.1) → e.2 < w ∨ (e.2 = w ∧ r ≤ e.1)) ∧
      getRecommendedReviewerForFile
        { fileReviewerPreferences := [(".ts".toList, [(7, 3), (9, 5)])] }
        "x.ts".toList [⟨7, "a".toList⟩, ⟨9, "b".toList⟩] = some 9 ∧
      getRecommendedReviewerForFile
        { fileReviewerPreferences := [(".ts".toList, [(7, 3), (9, 5)])] }
        "x.ts".toList [⟨7, "a".toList⟩] = some 7 := by
  have hres : getRecommendedReviewerForFile cache filePath avail
      = (((jsEntriesNat m).insertionSort weightLE).find? fun pr =>
          avail.any fun u => u.id = pr.1).map (·.1) := by
    simp only [getRecommendedReviewerForFile, hm]
  have hperm : ((jsEntriesNat m).insertionSort weightLE).Perm m :=
    (List.perm_insertionSort weightLE _).trans (List.perm_insertionSort keyLE m)
  refine ⟨?_, ?_, by decide, by decide⟩
  · rw [hres, Option.map_eq_none']
    constructor
    · intro hnone e hem u hu heq
      have := List.find?_eq_none.mp hnone e (hperm.mem_iff.mpr hem)
      exact this (List.any_eq_true.mpr ⟨u, hu, by simp [heq]⟩)
    · intro hall
      rw [List.find?_eq_none]
      intro x hx hany
      obtain ⟨u, hu, hid⟩ := List.any_eq_true.mp hany
      exact hall x (hperm.subset hx) u hu (of_decide_eq_true hid)
  · intro r hr
    rw [hres] at hr
    obtain ⟨pr, hfind, hpr1⟩ := Option.map_eq_some'.mp hr
    obtain ⟨hP, as, bs, hsplit, hprev⟩ := List.find?_eq_some.mp hfind
    have hPairwise := sortedEntries_pairwise m hkeys
    have hpr_mem_s : pr ∈ (jsEntriesNat m).insertionSort weightLE := by
      rw [hsplit]
      simp
    have hpr_mem : pr ∈ m := hperm.subset hpr_mem_s
    rw [hsplit] at hPairwise
    refine ⟨pr.2, ?_, ?_, ?_⟩
    · rw [← hpr1]
      exact hpr_mem
    · obtain ⟨u, hu, hid⟩ := List.any_eq_true.mp hP
      exact ⟨u, hu, by rw [of_decide_eq_true hid, hpr1]⟩
    · intro e hem havail
      have hes : e ∈ (jsEntriesNat m).insertionSort weightLE := hperm.mem_iff.mpr hem
      rw [hsplit] at hes
      rcases List.mem_append.mp hes with hin_as | hin_cons
      · exfalso
        have hfalse := hprev e hin_as
        obtain ⟨u, hu, hid⟩ := havail
        have hT : (avail.any fun u => u.id = e.1) = true :=
          List.any_eq_true.mpr ⟨u, hu, by simp [hid]⟩
        simp [hT] at hfalse
      · rcases List.mem_cons.mp hin_cons with rfl | hin_bs
        · refine Or.inr ⟨rfl, ?_⟩
          rw [← hpr1]
        · have hlt : weightKeyLT pr e :=
            (List.pairwise_cons.mp (List.pairwise_append.mp hPairwise).2.1).1 e hin_bs
          rcases hlt with h2 | ⟨h2, h3⟩
          · exact Or.inl h2
          · refine Or.inr ⟨h2, ?_⟩
            rw [← hpr1]
            exact Nat.le_of_lt h3

/-- C6 (witness): the amended recommendation theorem applied to the claim's
concrete weight map `{'.ts': {7:3, 9:5}}` with both reviewers available. -/
theorem C6_witness :
    (getRecommendedReviewerForFile
        { fileReviewerPreferences := [(".ts".toList, [(7, 3), (9, 5)])] }
        "x.ts".toList [⟨7, "a".toList⟩, ⟨9, "b".toList⟩] = some 9) ∧
      (getRecommendedReviewerForFile
          { fileReviewerPreferences := [(".ts".toList, [(7, 3), (9, 5)])] }
          "x.ts".toList [⟨7, "a".toList⟩, ⟨9, "b".toList⟩] = none ↔
        ∀ e ∈ [((7 : Nat), (3 : Nat)), (9, 5)],
          ∀ u ∈ [(⟨7, "a".toList⟩ : UserInfo), ⟨9, "b".toList⟩], u.id ≠ e.1) :=
  ⟨(C6_recommendation_amended
      { fileReviewerPreferences := [(".ts".toList, [(7, 3), (9, 5)])] }
      "x.ts".toList [⟨7, "a".toList⟩, ⟨9, "b".toList⟩] [(7, 3), (9, 5)]
      (by decide) (by decide)).2.2.1,
    (C6_recommendation_amended
      { fileReviewerPreferences := [(".ts".toList, [(7, 3), (9, 5)])] }
      "x.ts".toList [⟨7, "a".toList⟩, ⟨9, "b".toList⟩] [(7, 3), (9, 5)]
      (by decide) (by decide)).1⟩

end IterationCli
